import Mathlib

/-!
Verification of the frequency-analysis / weighted-sampling core of
`src/lottery_test/analyzer.py`.

The Python code is embedded shallowly:

* a Python `dict` with `Nat` keys is an association list `List (Nat × α)`
  in insertion order with pairwise-distinct keys (all dicts built by the
  code are comprehensions over `range(1, n+1)`, so keys are `1..n` in
  ascending order);
* Python `int` counts are `Nat`; the real-valued weighted counts and the
  sampler's arithmetic are `ℚ` (every number the code manipulates on the
  paths verified here is produced by integer additions and additions of
  the rational `recent_weight`, all exact);
* a raised exception (`KeyError` from `d[k] += ...` on a missing key,
  `TypeError` from iterating an `int`) is `Except.error`;
* `random.uniform(0, total)` is an oracle parameter `rand`; hypotheses on
  `rand` state exactly the guarantee of the library call (the draw lies
  between `0` and `total`);
* the fallback branch built from `random.sample` / `random.randint` is an
  oracle `fallback : Prediction`;
* `Prediction` keeps the fields the claims are about (`red_balls`,
  `blue_ball`); the provenance metadata (timestamp, predictor name,
  method string) is dropped.
-/

/-- One historical draw record: `item['red_balls']` and `item['blue_ball']`
(`issue` and `date` are never read by the analysis code and are dropped). -/
structure Record where
  red_balls : List Nat
  blue_ball : Nat
  deriving DecidableEq

/-- The Python exceptions the embedded code can raise. -/
inductive PyErr where
  | keyError
  | typeError
  deriving DecidableEq

instance {ε α : Type} [DecidableEq ε] [DecidableEq α] : DecidableEq (Except ε α) :=
  fun a b =>
    match a, b with
    | .ok x, .ok y => decidable_of_iff (x = y) (by simp)
    | .error e, .error f => decidable_of_iff (e = f) (by simp)
    | .ok _, .error _ => isFalse (fun h => Except.noConfusion h)
    | .error _, .ok _ => isFalse (fun h => Except.noConfusion h)

/-- Keys of a Python dict (association list). -/
def keys {α : Type} (d : List (Nat × α)) : List Nat := d.map Prod.fst

/-- Python `k in d` (key membership test). -/
def hasKey {α : Type} (d : List (Nat × α)) (k : Nat) : Bool :=
  d.any (fun p => p.1 == k)

/-- Python `d[k] += w` on a dict whose keys are distinct: the entry for `k`
is replaced by `(k, old + w)`, all other entries are untouched. -/
def bumpBy {α : Type} [Add α] (d : List (Nat × α)) (k : Nat) (w : α) : List (Nat × α) :=
  d.map (fun p => if p.1 = k then (p.1, p.2 + w) else p)

/-- Python `{i: 0 for i in range(1, n + 1)}`. -/
def initFreq {α : Type} [Zero α] (n : Nat) : List (Nat × α) :=
  (List.range n).map (fun i => (i + 1, 0))

/-- Python `sum(d.values())`. -/
def sumValues {α : Type} [AddCommMonoid α] (d : List (Nat × α)) : α :=
  (d.map Prod.snd).sum

/-- Python `d.get(k, 0)`. -/
def getOr0 {α : Type} [Zero α] : List (Nat × α) → Nat → α
  | [], _ => 0
  | p :: rest, k => if p.1 = k then p.2 else getOr0 rest k

/-- Python `d.get(k, 1)` (the accessor the samplers use on weight dicts). -/
def getOr1 : List (Nat × ℚ) → Nat → ℚ
  | [], _ => 1
  | p :: rest, k => if p.1 = k then p.2 else getOr1 rest k

/-- The list `[1, 2, ..., n]` (Python `list(range(1, n + 1))`). -/
def range1 (n : Nat) : List Nat := (List.range n).map (· + 1)

/-- The inner red-ball loop of the counting pass:
`for ball in item['red_balls']: if ball in red_frequency: red_frequency[ball] += w`
(`w = 1` in `FrequencyAnalyzer.analyze`; `w` is `1` or `recent_weight` in
`WeightedFrequencyAnalyzer.analyze_weighted`). -/
def bumpRedBalls {α : Type} [Add α] (w : α) (d : List (Nat × α)) (balls : List Nat) :
    List (Nat × α) :=
  balls.foldl (fun dd b => if hasKey dd b then bumpBy dd b w else dd) d

/-- The record loop shared by `FrequencyAnalyzer.analyze` (with `w = 1` over
`Nat`) and both loops of `WeightedFrequencyAnalyzer.analyze_weighted` (over
`ℚ`).  The state is the pair (red dict, blue dict).  The unguarded
`blue_frequency[item['blue_ball']] += w` raises `KeyError` when the blue
ball is not a key. -/
def countRecords {α : Type} [Add α] (w : α) :
    List Record → List (Nat × α) × List (Nat × α) →
      Except PyErr (List (Nat × α) × List (Nat × α))
  | [], st => .ok st
  | item :: rest, st =>
    let red := bumpRedBalls w st.1 item.red_balls
    if hasKey st.2 item.blue_ball then
      countRecords w rest (red, bumpBy st.2 item.blue_ball w)
    else
      .error .keyError

/-- Result of `FrequencyAnalyzer.analyze`. -/
structure AnalyzeResult where
  red : List (Nat × Nat)
  blue : List (Nat × Nat)
  total_records : Nat
  deriving DecidableEq

/-- `FrequencyAnalyzer.analyze`: empty data yields empty dicts; otherwise the
dicts over `1..33` / `1..16` are filled by one pass over the records. -/
def FrequencyAnalyzer.analyze (data : List Record) : Except PyErr AnalyzeResult :=
  if data.isEmpty then .ok ⟨[], [], 0⟩
  else
    (countRecords 1 data (initFreq 33, initFreq 16)).map
      (fun st => ⟨st.1, st.2, data.length⟩)

/-- Result of `WeightedFrequencyAnalyzer.analyze_weighted`. -/
structure WeightedResult where
  red : List (Nat × ℚ)
  blue : List (Nat × ℚ)
  total_records : Nat
  recent_count : Nat
  deriving DecidableEq

/-- `WeightedFrequencyAnalyzer.get_recent_data`:
`self.data[-count:] if count <= len(self.data) else self.data`.
Note Python's `data[-0:]` is the whole list. -/
def WeightedFrequencyAnalyzer.get_recent_data (data : List Record) (count : Nat) :
    List Record :=
  if count ≤ data.length then
    if count = 0 then data else data.drop (data.length - count)
  else data

/-- The early-data slice of `analyze_weighted`:
`self.data[:-recent_count] if recent_count > 0 else []`. -/
def WeightedFrequencyAnalyzer.early_data (data : List Record) (rc : Nat) : List Record :=
  if 0 < rc then data.take (data.length - rc) else []

/-- `WeightedFrequencyAnalyzer.analyze_weighted`: early records count with
weight 1, the last `recent_count` records with weight `recent_weight`. -/
def WeightedFrequencyAnalyzer.analyze_weighted (data : List Record)
    (recent_weight : ℚ) (recent_count : Nat) : Except PyErr WeightedResult :=
  if data.isEmpty then .ok ⟨[], [], 0, 0⟩
  else do
    let recent := WeightedFrequencyAnalyzer.get_recent_data data recent_count
    let rc := recent.length
    let early := WeightedFrequencyAnalyzer.early_data data rc
    let st1 ← countRecords (1 : ℚ) early (initFreq 33, initFreq 16)
    let st2 ← countRecords recent_weight recent st1
    pure ⟨st2.1, st2.2, data.length, rc⟩

/-- Entrywise cast of a `Nat`-valued dict to a `ℚ`-valued dict (Python ints
embed exactly in the rationals). -/
def castDict (d : List (Nat × Nat)) : List (Nat × ℚ) :=
  d.map (fun p => (p.1, (p.2 : ℚ)))

/-- The cumulative-sum walk inside `_weighted_sample` / `_weighted_sample_one`:
`cumsum = 0; for i in pool: cumsum += weights.get(i, 1); if cumsum >= r: <pick i>`.
Returns the first pool element whose cumulative weight reaches `r`, `none` if
the accumulation never reaches `r`. -/
def pickFrom (weights : List (Nat × ℚ)) (r : ℚ) : ℚ → List Nat → Option Nat
  | _, [] => none
  | cumsum, i :: rest =>
    let c := cumsum + getOr1 weights i
    if r ≤ c then some i else pickFrom weights r c rest

/-- Python `sum(weights.get(i, 1) for i in available)`. -/
def totalWeight (weights : List (Nat × ℚ)) (available : List Nat) : ℚ :=
  (available.map (getOr1 weights)).sum

/-- One iteration of the draw loop of `_weighted_sample`, given the value `r`
drawn by `random.uniform(0, total_weight)`: if the walk picks a ball, it is
appended to `selected` and removed from `available`; otherwise the state is
unchanged. -/
def sampleRound (r : ℚ) (weights : List (Nat × ℚ)) (st : List Nat × List Nat) :
    List Nat × List Nat :=
  match pickFrom weights r 0 st.1 with
  | some i => (st.1.erase i, st.2 ++ [i])
  | none => st

/-- The `for _ in range(count)` loop of `_weighted_sample`; `rand` is the
oracle for `random.uniform`, indexed by the iteration number and applied to
the current total weight. -/
def runRounds (rand : Nat → ℚ → ℚ) (weights : List (Nat × ℚ)) :
    Nat → Nat → List Nat × List Nat → List Nat × List Nat
  | _, 0, st => st
  | idx, n + 1, st =>
    runRounds rand weights (idx + 1) n
      (sampleRound (rand idx (totalWeight weights st.1)) weights st)

/-- `WeightedFrequencyAnalyzer._weighted_sample` (and the byte-identical
`LotteryPredictor._weighted_sample`): roulette-wheel selection of `count`
balls without replacement from `1..max_val`, returned via `sorted(selected)`. -/
def WeightedFrequencyAnalyzer.weighted_sample (rand : Nat → ℚ → ℚ)
    (weights : List (Nat × ℚ)) (count max_val : Nat) : List Nat :=
  ((runRounds rand weights 0 count (range1 max_val, [])).2).insertionSort (· ≤ ·)

/-- `WeightedFrequencyAnalyzer._weighted_sample_one` (and the byte-identical
`LotteryPredictor._weighted_sample_one`): one roulette-wheel draw over the
full range, with the deterministic `return 1` fallback when the accumulation
never reaches `r`. -/
def WeightedFrequencyAnalyzer.weighted_sample_one (rand : ℚ → ℚ)
    (weights : List (Nat × ℚ)) (max_val : Nat) : Nat :=
  match pickFrom weights (rand (totalWeight weights (range1 max_val))) 0
      (range1 max_val) with
  | some i => i
  | none => 1

/-- Python `max(d.values()) if d else 1` (the guarded maximum used by
`predict_by_weighted_frequency`; `LotteryPredictor.predict` computes the
unguarded `max(d.values())`, which it only reaches on non-empty dicts). -/
def maxValues (d : List (Nat × ℚ)) : ℚ :=
  match d.map Prod.snd with
  | [] => 1
  | v :: vs => vs.foldl max v

/-- The weight-derivation loop shared by both prediction strategies:
`for ball in range(1, max_ball + 1): w[ball] = max_freq - freq.get(ball, 0) + 1`. -/
def deriveWeights (freq : List (Nat × ℚ)) (max_freq : ℚ) (max_ball : Nat) :
    List (Nat × ℚ) :=
  (range1 max_ball).map (fun b => (b, max_freq - getOr0 freq b + 1))

/-- A prediction's payload: `red_balls` and `blue_ball` (timestamp and other
metadata dropped). -/
structure Prediction where
  red_balls : List Nat
  blue_ball : Nat
  deriving DecidableEq

/-- `WeightedFrequencyAnalyzer.predict_by_weighted_frequency`.  On empty data
it `return`s `self.predict(...)` immediately — modelled by the `fallback`
oracle — WITHOUT appending to `prediction_history`; otherwise it analyzes,
derives inverse weights, samples, appends the prediction to the history and
returns it. -/
def WeightedFrequencyAnalyzer.predict_by_weighted_frequency
    (rand : Nat → ℚ → ℚ) (randOne : ℚ → ℚ) (fallback : Prediction)
    (data : List Record) (recent_weight : ℚ)
    (red_count red_max blue_max recent_count : Nat)
    (history : List Prediction) : Except PyErr (Prediction × List Prediction) :=
  if data.isEmpty then .ok (fallback, history)
  else do
    let wf ← WeightedFrequencyAnalyzer.analyze_weighted data recent_weight recent_count
    let max_red := maxValues wf.red
    let max_blue := maxValues wf.blue
    let red_weights := deriveWeights wf.red max_red red_max
    let blue_weights := deriveWeights wf.blue max_blue blue_max
    let red_balls := WeightedFrequencyAnalyzer.weighted_sample rand red_weights
      red_count red_max
    let blue_ball := WeightedFrequencyAnalyzer.weighted_sample_one randOne
      blue_weights blue_max
    let p : Prediction := ⟨red_balls, blue_ball⟩
    pure (p, history ++ [p])

/-- The `data` argument of `LotteryPredictor.predict`, which Python types
dynamically: `predict_both_methods` erroneously passes an `int` where a list
of records (or `None`) is expected. -/
inductive DataArg where
  | recordsArg (l : List Record)
  | intArg (n : Nat)
  | noneArg
  deriving DecidableEq

/-- Python truthiness test `not data` (negated): `None`, `[]` and `0` are
falsy. -/
def DataArg.isFalsy : DataArg → Bool
  | .noneArg => true
  | .recordsArg l => l.isEmpty
  | .intArg n => n == 0

/-- `LotteryPredictor.predict`: on falsy `data` it draws uniformly at random
(the `fallback` oracle), otherwise it runs `FrequencyAnalyzer(data).analyze()`
— iterating an `int` there raises `TypeError` — derives inverse weights and
samples.  Either way the prediction is appended to `prediction_history`
before being returned. -/
def LotteryPredictor.predict (rand : Nat → ℚ → ℚ) (randOne : ℚ → ℚ)
    (fallback : Prediction) (data : DataArg)
    (red_count red_max blue_max : Nat) (history : List Prediction) :
    Except PyErr (Prediction × List Prediction) :=
  if data.isFalsy then .ok (fallback, history ++ [fallback])
  else
    match data with
    | .intArg _ => .error .typeError
    | .noneArg => .error .typeError
    | .recordsArg l => do
      let freq ← FrequencyAnalyzer.analyze l
      let redQ := castDict freq.red
      let blueQ := castDict freq.blue
      let red_weights := deriveWeights redQ (maxValues redQ) red_max
      let blue_weights := deriveWeights blueQ (maxValues blueQ) blue_max
      let red_balls := WeightedFrequencyAnalyzer.weighted_sample rand red_weights
        red_count red_max
      let blue_ball := WeightedFrequencyAnalyzer.weighted_sample_one randOne
        blue_weights blue_max
      let p : Prediction := ⟨red_balls, blue_ball⟩
      pure (p, history ++ [p])

/-- `LotteryPredictor.predict_by_recent_data`: builds a fresh
`WeightedFrequencyAnalyzer(data, recent_weight=3.0)` (whose own history starts
empty), runs the weighted prediction, and appends the result to the
predictor's own `prediction_history`. -/
def LotteryPredictor.predict_by_recent_data (rand : Nat → ℚ → ℚ)
    (randOne : ℚ → ℚ) (fallback : Prediction) (data : List Record)
    (red_count red_max blue_max recent_count : Nat)
    (history : List Prediction) : Except PyErr (Prediction × List Prediction) := do
  let pr ← WeightedFrequencyAnalyzer.predict_by_weighted_frequency rand randOne
    fallback data 3 red_count red_max blue_max recent_count []
  pure (pr.1, history ++ [pr.1])

/-- `LotteryPredictor.predict_both_methods`.  The source calls
`self.predict(red_count, red_max, blue_max)` with positional arguments, so
`red_count` lands in the `data` parameter, `red_max` in `red_count`,
`blue_max` in `red_max`, and `blue_max` keeps its default 16. -/
def LotteryPredictor.predict_both_methods (rand : Nat → ℚ → ℚ)
    (randOne : ℚ → ℚ) (fallback : Prediction) (data : List Record)
    (red_count red_max blue_max : Nat) (history : List Prediction) :
    Except PyErr ((Prediction × Prediction) × List Prediction) := do
  let m1 ← LotteryPredictor.predict rand randOne fallback (.intArg red_count)
    red_max blue_max 16 history
  let m2 ← LotteryPredictor.predict_by_recent_data rand randOne fallback data
    red_count red_max blue_max 160 m1.2
  pure ((m1.1, m2.1), m2.2)

/-! ### Concrete instances used by witnesses -/

/-- The sample record `{red_balls: [1..6], blue_ball: 7}`. -/
def recX : Record := ⟨[1, 2, 3, 4, 5, 6], 7⟩

/-- Plain red counts of one pass over `[recX]`. -/
def redCountsN : List (Nat × Nat) := bumpRedBalls 1 (initFreq 33) [1, 2, 3, 4, 5, 6]

/-- Plain blue counts of one pass over `[recX]`. -/
def blueCountsN : List (Nat × Nat) := bumpBy (initFreq 16) 7 1

/-- Weighted red counts of one pass over `[recX]` with recent weight 3. -/
def redCountsW : List (Nat × ℚ) := bumpRedBalls (3 : ℚ) (initFreq 33) [1, 2, 3, 4, 5, 6]

/-- Weighted blue counts of one pass over `[recX]` with recent weight 3. -/
def blueCountsW : List (Nat × ℚ) := bumpBy (initFreq 16) 7 (3 : ℚ)

/-- The prediction `predict_by_weighted_frequency` builds from `[recX]` under
the zero random oracle. -/
def predX : Prediction :=
  ⟨WeightedFrequencyAnalyzer.weighted_sample (fun _ _ => 0)
      (deriveWeights redCountsW (maxValues redCountsW) 33) 6 33,
   WeightedFrequencyAnalyzer.weighted_sample_one (fun _ => 0)
      (deriveWeights blueCountsW (maxValues blueCountsW) 16) 16⟩

/-! ### Dictionary lemmas -/

theorem keys_bumpBy {α : Type} [Add α] (d : List (Nat × α)) (k : Nat) (w : α) :
    keys (bumpBy d k w) = keys d := by
  simp only [keys, bumpBy, List.map_map]
  refine List.map_congr_left ?_
  intro p _
  by_cases h : p.1 = k <;> simp [h]

theorem hasKey_iff {α : Type} (d : List (Nat × α)) (k : Nat) :
    hasKey d k = true ↔ k ∈ keys d := by
  simp only [hasKey, List.any_eq_true, beq_iff_eq, keys, List.mem_map]

theorem keys_initFreq {α : Type} [Zero α] (n : Nat) :
    keys (initFreq n : List (Nat × α)) = range1 n := by
  rw [keys, initFreq, List.map_map]; rfl

theorem mem_range1 {b n : Nat} : b ∈ range1 n ↔ 1 ≤ b ∧ b ≤ n := by
  simp only [range1, List.mem_map, List.mem_range]
  constructor
  · rintro ⟨i, hi, rfl⟩; omega
  · rintro ⟨h1, h2⟩; exact ⟨b - 1, by omega, by omega⟩

theorem nodup_range1 (n : Nat) : (range1 n).Nodup :=
  (List.nodup_range n).map (fun a b h => by omega)

theorem sorted_range1 (n : Nat) : List.Sorted (· ≤ ·) (range1 n) :=
  (List.pairwise_lt_range n).map _ (fun h => by omega)

theorem bumpBy_not_mem {α : Type} [Add α] {d : List (Nat × α)} {k : Nat} (w : α)
    (h : k ∉ keys d) : bumpBy d k w = d := by
  induction d with
  | nil => rfl
  | cons p rest ih =>
    simp only [keys, List.map_cons, List.mem_cons] at h
    push_neg at h
    simp [bumpBy, Ne.symm h.1]
    simpa [bumpBy, keys] using ih h.2

theorem getOr0_bumpBy_ne {α : Type} [Zero α] [Add α] (d : List (Nat × α))
    {k b : Nat} (w : α) (h : b ≠ k) : getOr0 (bumpBy d k w) b = getOr0 d b := by
  induction d with
  | nil => rfl
  | cons p rest ih =>
    show getOr0 ((if p.1 = k then (p.1, p.2 + w) else p) :: bumpBy rest k w) b
      = getOr0 (p :: rest) b
    by_cases hp : p.1 = k
    · have hb : ¬ p.1 = b := by omega
      rw [if_pos hp]
      simp only [getOr0, hb, if_false]
      exact ih
    · rw [if_neg hp]
      by_cases hb : p.1 = b
      · simp only [getOr0, hb, if_true]
      · simp only [getOr0, hb, if_false]
        exact ih

theorem getOr0_zero {α : Type} [Zero α] {d : List (Nat × α)}
    (h : ∀ p ∈ d, p.2 = 0) (b : Nat) : getOr0 d b = 0 := by
  induction d with
  | nil => rfl
  | cons p rest ih =>
    by_cases hb : p.1 = b
    · simpa [getOr0, hb] using h p (List.mem_cons_self p rest)
    · simp only [getOr0, hb, if_false]
      exact ih (fun q hq => h q (List.mem_cons_of_mem p hq))

theorem getOr0_initFreq {α : Type} [Zero α] (n b : Nat) :
    getOr0 (initFreq n : List (Nat × α)) b = 0 := by
  refine getOr0_zero ?_ b
  intro p hp
  simp only [initFreq, List.mem_map] at hp
  obtain ⟨i, _, rfl⟩ := hp
  rfl

theorem sumValues_bumpBy {α : Type} [AddCommMonoid α] {d : List (Nat × α)}
    {k : Nat} (w : α) (hd : (keys d).Nodup) (hk : k ∈ keys d) :
    sumValues (bumpBy d k w) = sumValues d + w := by
  induction d with
  | nil => simp [keys] at hk
  | cons p rest ih =>
    simp only [keys, List.map_cons, List.nodup_cons] at hd
    show sumValues ((if p.1 = k then (p.1, p.2 + w) else p) :: bumpBy rest k w)
      = sumValues (p :: rest) + w
    by_cases hp : p.1 = k
    · have hnot : k ∉ keys rest := by rw [← hp]; exact hd.1
      rw [if_pos hp, bumpBy_not_mem w hnot]
      simp only [sumValues, List.map_cons, List.sum_cons]
      rw [add_right_comm]
    · have hk' : k ∈ keys rest := by
        simp only [keys, List.map_cons, List.mem_cons] at hk
        rcases hk with h | h
        · exact absurd h.symm hp
        · exact h
      have ih' := ih hd.2 hk'
      rw [if_neg hp]
      simp only [sumValues, List.map_cons, List.sum_cons] at ih' ⊢
      rw [ih']
      exact (add_assoc _ _ _).symm

/-! ### Lemmas about the counting pass -/

theorem keys_bumpRedBalls {α : Type} [Add α] (w : α) (balls : List Nat) :
    ∀ d : List (Nat × α), keys (bumpRedBalls w d balls) = keys d := by
  induction balls with
  | nil => intro d; rfl
  | cons b bs ih =>
    intro d
    show keys (bumpRedBalls w (if hasKey d b then bumpBy d b w else d) bs) = keys d
    rw [ih]
    by_cases h : hasKey d b <;> simp [h, keys_bumpBy]

theorem getOr0_bumpRedBalls {α : Type} [Zero α] [Add α] (w : α) (balls : List Nat)
    {b : Nat} (hb : b ∉ balls) :
    ∀ d : List (Nat × α), getOr0 (bumpRedBalls w d balls) b = getOr0 d b := by
  induction balls with
  | nil => intro d; rfl
  | cons x bs ih =>
    intro d
    have hx : b ≠ x := fun h => hb (h ▸ List.mem_cons_self x bs)
    have hbs : b ∉ bs := fun h => hb (List.mem_cons_of_mem x h)
    show getOr0 (bumpRedBalls w (if hasKey d x then bumpBy d x w else d) bs) b = getOr0 d b
    rw [ih hbs]
    by_cases h : hasKey d x <;> simp [h, getOr0_bumpBy_ne d w hx]

theorem sumValues_bumpRedBalls (balls : List Nat) :
    ∀ d : List (Nat × Nat), keys d = range1 33 → (∀ b ∈ balls, 1 ≤ b ∧ b ≤ 33) →
      sumValues (bumpRedBalls 1 d balls) = sumValues d + balls.length := by
  induction balls with
  | nil => intro d _ _; rfl
  | cons b bs ih =>
    intro d hkeys hrange
    have hbmem : b ∈ keys d := by
      rw [hkeys, mem_range1]
      exact hrange b (List.mem_cons_self b bs)
    have hhas : hasKey d b = true := (hasKey_iff d b).mpr hbmem
    have hnodup : (keys d).Nodup := hkeys ▸ nodup_range1 33
    show sumValues (bumpRedBalls 1 (if hasKey d b then bumpBy d b 1 else d) bs)
      = sumValues d + (b :: bs).length
    rw [if_pos hhas,
      ih (bumpBy d b 1) (by rw [keys_bumpBy, hkeys])
        (fun x hx => hrange x (List.mem_cons_of_mem b hx)),
      sumValues_bumpBy 1 hnodup hbmem]
    simp [List.length_cons]
    omega

theorem countRecords_ok_keys {α : Type} [Add α] (w : α) (recs : List Record) :
    ∀ st st', countRecords w recs st = .ok st' →
      keys st'.1 = keys st.1 ∧ keys st'.2 = keys st.2 := by
  induction recs with
  | nil =>
    intro st st' h
    cases h
    exact ⟨rfl, rfl⟩
  | cons item rest ih =>
    intro st st' h
    simp only [countRecords] at h
    by_cases hb : hasKey st.2 item.blue_ball
    · rw [if_pos hb] at h
      obtain ⟨h1, h2⟩ := ih _ _ h
      constructor
      · rw [h1]; exact keys_bumpRedBalls w item.red_balls st.1
      · rw [h2]; exact keys_bumpBy st.2 item.blue_ball w
    · rw [if_neg hb] at h
      cases h

theorem countRecords_ok_of_blue {α : Type} [Add α] (w : α) (recs : List Record)
    (hblue : ∀ r ∈ recs, 1 ≤ r.blue_ball ∧ r.blue_ball ≤ 16) :
    ∀ st, keys st.2 = range1 16 → ∃ st', countRecords w recs st = .ok st' := by
  induction recs with
  | nil => intro st _; exact ⟨st, rfl⟩
  | cons item rest ih =>
    intro st hkeys
    have hmem : item.blue_ball ∈ keys st.2 := by
      rw [hkeys, mem_range1]
      exact hblue item (List.mem_cons_self item rest)
    have hhas : hasKey st.2 item.blue_ball = true := (hasKey_iff _ _).mpr hmem
    have hrest : ∀ r ∈ rest, 1 ≤ r.blue_ball ∧ r.blue_ball ≤ 16 :=
      fun r hr => hblue r (List.mem_cons_of_mem item hr)
    obtain ⟨st', hst'⟩ := ih hrest
      (bumpRedBalls w st.1 item.red_balls, bumpBy st.2 item.blue_ball w)
      (by rw [keys_bumpBy]; exact hkeys)
    refine ⟨st', ?_⟩
    simp only [countRecords, if_pos hhas]
    exact hst'


theorem countRecords_append {α : Type} [Add α] (w : α) (l1 l2 : List Record) :
    ∀ st, countRecords w (l1 ++ l2) st
      = (countRecords w l1 st).bind (fun st1 => countRecords w l2 st1) := by
  induction l1 with
  | nil => intro st; rfl
  | cons item rest ih =>
    intro st
    simp only [List.cons_append, countRecords]
    by_cases hb : hasKey st.2 item.blue_ball
    · rw [if_pos hb, if_pos hb, show rest.append l2 = rest ++ l2 from rfl, ih]
    · rw [if_neg hb, if_neg hb]
      rfl

/-! ### Cast lemmas: the weighted pass with weight 1 mirrors the plain pass -/

theorem keys_castDict (d : List (Nat × Nat)) : keys (castDict d) = keys d := by
  simp only [keys, castDict, List.map_map]
  rfl

theorem hasKey_castDict (d : List (Nat × Nat)) (k : Nat) :
    hasKey (castDict d) k = hasKey d k := by
  induction d with
  | nil => rfl
  | cons p rest ih =>
    rw [show hasKey (castDict (p :: rest)) k
        = ((p.1 == k) || hasKey (castDict rest) k) from rfl,
      show hasKey (p :: rest) k = ((p.1 == k) || hasKey rest k) from rfl, ih]

theorem castDict_bumpBy (d : List (Nat × Nat)) (k w : Nat) :
    castDict (bumpBy d k w) = bumpBy (castDict d) k (w : ℚ) := by
  simp only [castDict, bumpBy, List.map_map]
  refine List.map_congr_left ?_
  intro p _
  by_cases hp : p.1 = k <;> simp [hp]

theorem castDict_bumpBy_one (d : List (Nat × Nat)) (k : Nat) :
    castDict (bumpBy d k 1) = bumpBy (castDict d) k (1 : ℚ) := by
  rw [castDict_bumpBy]
  norm_num

theorem castDict_initFreq (n : Nat) : castDict (initFreq n) = initFreq n := by
  simp only [castDict, initFreq, List.map_map]
  refine List.map_congr_left ?_
  intro i _
  simp

theorem castDict_bumpRedBalls (balls : List Nat) :
    ∀ d : List (Nat × Nat), castDict (bumpRedBalls 1 d balls)
      = bumpRedBalls (1 : ℚ) (castDict d) balls := by
  induction balls with
  | nil => intro d; rfl
  | cons b bs ih =>
    intro d
    show castDict (bumpRedBalls 1 (if hasKey d b then bumpBy d b 1 else d) bs)
      = bumpRedBalls (1 : ℚ)
          (if hasKey (castDict d) b then bumpBy (castDict d) b 1 else castDict d) bs
    rw [ih, hasKey_castDict]
    by_cases h : hasKey d b
    · rw [if_pos h, if_pos h, castDict_bumpBy]
      norm_num
    · rw [if_neg h, if_neg h]

theorem countRecords_cast (recs : List Record) :
    ∀ st : List (Nat × Nat) × List (Nat × Nat),
      countRecords (1 : ℚ) recs (castDict st.1, castDict st.2)
        = (countRecords (1 : Nat) recs st).map (fun st => (castDict st.1, castDict st.2)) := by
  induction recs with
  | nil => intro st; rfl
  | cons item rest ih =>
    intro st
    simp only [countRecords, hasKey_castDict]
    by_cases hb : hasKey st.2 item.blue_ball
    · rw [if_pos hb, if_pos hb, ← castDict_bumpBy_one, ← castDict_bumpRedBalls]
      exact ih (bumpRedBalls 1 st.1 item.red_balls, bumpBy st.2 item.blue_ball 1)
    · rw [if_neg hb, if_neg hb]
      rfl

/-- The early and recent slices computed by `analyze_weighted` always
partition the data in order. -/
theorem early_append_recent (data : List Record) (count : Nat) :
    WeightedFrequencyAnalyzer.early_data data
        (WeightedFrequencyAnalyzer.get_recent_data data count).length
      ++ WeightedFrequencyAnalyzer.get_recent_data data count = data := by
  unfold WeightedFrequencyAnalyzer.early_data WeightedFrequencyAnalyzer.get_recent_data
  by_cases h1 : count ≤ data.length
  · by_cases h2 : count = 0
    · rw [if_pos h1, if_pos h2]
      by_cases h3 : 0 < data.length
      · rw [if_pos h3, Nat.sub_self, List.take_zero, List.nil_append]
      · rw [if_neg h3, List.nil_append]
    · rw [if_pos h1, if_neg h2]
      have hlen : (data.drop (data.length - count)).length = count := by
        rw [List.length_drop]
        omega
      rw [hlen, if_pos (Nat.pos_of_ne_zero h2), List.take_append_drop]
  · rw [if_neg h1]
    by_cases h3 : 0 < data.length
    · rw [if_pos h3, Nat.sub_self, List.take_zero, List.nil_append]
    · rw [if_neg h3, List.nil_append]

theorem countRecords_getOr0_red {α : Type} [Zero α] [Add α] (w : α)
    (recs : List Record) {b : Nat} :
    ∀ st st', countRecords w recs st = .ok st' → (∀ r ∈ recs, b ∉ r.red_balls) →
      getOr0 st'.1 b = getOr0 st.1 b := by
  induction recs with
  | nil =>
    intro st st' h _
    cases h
    rfl
  | cons item rest ih =>
    intro st st' h hb
    simp only [countRecords] at h
    by_cases hk : hasKey st.2 item.blue_ball
    · rw [if_pos hk] at h
      rw [ih _ _ h (fun r hr => hb r (List.mem_cons_of_mem item hr))]
      exact getOr0_bumpRedBalls w item.red_balls
        (hb item (List.mem_cons_self item rest)) st.1
    · rw [if_neg hk] at h
      cases h

theorem countRecords_getOr0_blue {α : Type} [Zero α] [Add α] (w : α)
    (recs : List Record) {b : Nat} :
    ∀ st st', countRecords w recs st = .ok st' → (∀ r ∈ recs, r.blue_ball ≠ b) →
      getOr0 st'.2 b = getOr0 st.2 b := by
  induction recs with
  | nil =>
    intro st st' h _
    cases h
    rfl
  | cons item rest ih =>
    intro st st' h hb
    simp only [countRecords] at h
    by_cases hk : hasKey st.2 item.blue_ball
    · rw [if_pos hk] at h
      rw [ih _ _ h (fun r hr => hb r (List.mem_cons_of_mem item hr))]
      exact getOr0_bumpBy_ne st.2 w
        (fun hh => hb item (List.mem_cons_self item rest) hh.symm)
    · rw [if_neg hk] at h
      cases h

theorem countRecords_sum (recs : List Record)
    (hrecs : ∀ r ∈ recs, r.red_balls.length = 6 ∧ (∀ b ∈ r.red_balls, 1 ≤ b ∧ b ≤ 33)
      ∧ 1 ≤ r.blue_ball ∧ r.blue_ball ≤ 16) :
    ∀ st : List (Nat × Nat) × List (Nat × Nat),
      keys st.1 = range1 33 → keys st.2 = range1 16 →
      ∃ st', countRecords 1 recs st = .ok st'
        ∧ sumValues st'.1 = sumValues st.1 + 6 * recs.length
        ∧ sumValues st'.2 = sumValues st.2 + recs.length := by
  induction recs with
  | nil =>
    intro st _ _
    exact ⟨st, rfl, by simp, by simp⟩
  | cons item rest ih =>
    intro st hk1 hk2
    obtain ⟨hlen, hred, hb1, hb2⟩ := hrecs item (List.mem_cons_self item rest)
    have hmem : item.blue_ball ∈ keys st.2 := by
      rw [hk2, mem_range1]; exact ⟨hb1, hb2⟩
    have hhas : hasKey st.2 item.blue_ball = true := (hasKey_iff _ _).mpr hmem
    obtain ⟨st', hok, hs1, hs2⟩ := ih
      (fun r hr => hrecs r (List.mem_cons_of_mem item hr))
      (bumpRedBalls 1 st.1 item.red_balls, bumpBy st.2 item.blue_ball 1)
      (by rw [keys_bumpRedBalls]; exact hk1)
      (by rw [keys_bumpBy]; exact hk2)
    refine ⟨st', ?_, ?_, ?_⟩
    · simp only [countRecords, if_pos hhas]
      exact hok
    · rw [hs1, sumValues_bumpRedBalls item.red_balls st.1 hk1 hred, hlen,
        List.length_cons]
      omega
    · rw [hs2, sumValues_bumpBy 1 (hk2 ▸ nodup_range1 16) hmem, List.length_cons]
      omega

/-! ### Out-of-range primary symbols are ignored by the counting pass -/

/-- The valid-range test for red balls. -/
def inRange33 (b : Nat) : Bool := decide (1 ≤ b) && decide (b ≤ 33)

theorem bumpRedBalls_filter {α : Type} [Add α] (w : α) (balls : List Nat) :
    ∀ d : List (Nat × α), keys d = range1 33 →
      bumpRedBalls w d balls = bumpRedBalls w d (balls.filter inRange33) := by
  induction balls with
  | nil => intro d _; rfl
  | cons b bs ih =>
    intro d hk
    by_cases hb : inRange33 b = true
    · have hmem : b ∈ keys d := by
        rw [hk, mem_range1]
        simpa [inRange33] using hb
      have hhas := (hasKey_iff d b).mpr hmem
      rw [List.filter_cons_of_pos hb]
      show bumpRedBalls w (if hasKey d b then bumpBy d b w else d) bs
        = bumpRedBalls w (if hasKey d b then bumpBy d b w else d) (bs.filter inRange33)
      rw [if_pos hhas]
      exact ih (bumpBy d b w) (by rw [keys_bumpBy]; exact hk)
    · have hmem : b ∉ keys d := by
        simp only [hk, mem_range1]
        simp only [inRange33, Bool.and_eq_true, decide_eq_true_eq] at hb
        omega
      have hhas : ¬ hasKey d b = true := fun h => hmem ((hasKey_iff d b).mp h)
      rw [List.filter_cons_of_neg (by simpa using hb)]
      show bumpRedBalls w (if hasKey d b then bumpBy d b w else d) bs
        = bumpRedBalls w d (bs.filter inRange33)
      rw [if_neg hhas]
      exact ih d hk

theorem countRecords_filter {α : Type} [Add α] (w : α) (recs : List Record) :
    ∀ st, keys st.1 = range1 33 →
      countRecords w
        (recs.map (fun r => ⟨r.red_balls.filter inRange33, r.blue_ball⟩)) st
      = countRecords w recs st := by
  induction recs with
  | nil => intro st _; rfl
  | cons item rest ih =>
    intro st hk
    simp only [List.map_cons, countRecords]
    by_cases hb : hasKey st.2 item.blue_ball
    · rw [if_pos hb, if_pos hb, ← bumpRedBalls_filter w item.red_balls st.1 hk]
      exact ih (bumpRedBalls w st.1 item.red_balls, bumpBy st.2 item.blue_ball w)
        (by rw [keys_bumpRedBalls]; exact hk)
    · rw [if_neg hb, if_neg hb]

/-! ### Sampler lemmas -/

theorem getOr1_nonneg {weights : List (Nat × ℚ)}
    (hw : ∀ p ∈ weights, 0 ≤ p.2) (i : Nat) : 0 ≤ getOr1 weights i := by
  induction weights with
  | nil => norm_num [getOr1]
  | cons p rest ih =>
    by_cases hp : p.1 = i
    · simpa [getOr1, hp] using hw p (List.mem_cons_self p rest)
    · simp only [getOr1, hp, if_false]
      exact ih (fun q hq => hw q (List.mem_cons_of_mem p hq))

theorem totalWeight_nonneg {weights : List (Nat × ℚ)}
    (hw : ∀ p ∈ weights, 0 ≤ p.2) (av : List Nat) : 0 ≤ totalWeight weights av := by
  refine List.sum_nonneg ?_
  intro x hx
  obtain ⟨i, _, rfl⟩ := List.mem_map.mp hx
  exact getOr1_nonneg hw i

theorem pickFrom_mem (weights : List (Nat × ℚ)) (r : ℚ) {i : Nat} :
    ∀ (av : List Nat) (c : ℚ), pickFrom weights r c av = some i → i ∈ av := by
  intro av
  induction av with
  | nil => intro c h; cases h
  | cons a rest ih =>
    intro c h
    simp only [pickFrom] at h
    by_cases hr : r ≤ c + getOr1 weights a
    · rw [if_pos hr] at h
      cases h
      exact List.mem_cons_self _ _
    · rw [if_neg hr] at h
      exact List.mem_cons_of_mem a (ih _ h)

theorem pickFrom_isSome (weights : List (Nat × ℚ)) (r : ℚ) :
    ∀ (av : List Nat) (c : ℚ), av ≠ [] → r ≤ c + (av.map (getOr1 weights)).sum →
      ∃ i, pickFrom weights r c av = some i := by
  intro av
  induction av with
  | nil => intro c h _; exact absurd rfl h
  | cons a rest ih =>
    intro c _ hsum
    by_cases hr : r ≤ c + getOr1 weights a
    · exact ⟨a, by simp only [pickFrom, if_pos hr]⟩
    · have hrest : rest ≠ [] := by
        rintro rfl
        simp only [List.map_nil, List.sum_nil, List.map_cons, List.sum_cons,
          List.sum_nil, add_zero] at hsum
        exact hr hsum
      have hsum' : r ≤ (c + getOr1 weights a) + (rest.map (getOr1 weights)).sum := by
        simp only [List.map_cons, List.sum_cons] at hsum
        linarith
      obtain ⟨i, hi⟩ := ih (c + getOr1 weights a) hrest hsum'
      exact ⟨i, by simp only [pickFrom, if_neg hr]; exact hi⟩

/-- A successful round moves one ball from the pool to the selection. -/
theorem sampleRound_pick {weights : List (Nat × ℚ)} {r : ℚ}
    {st : List Nat × List Nat} (hne : st.1 ≠ [])
    (h0 : 0 ≤ r) (ht : r ≤ totalWeight weights st.1) :
    ∃ i, i ∈ st.1 ∧ sampleRound r weights st = (st.1.erase i, st.2 ++ [i]) := by
  obtain ⟨i, hi⟩ := pickFrom_isSome weights r st.1 0 hne
    (by simpa [totalWeight] using ht)
  exact ⟨i, pickFrom_mem weights r st.1 0 hi, by simp only [sampleRound, hi]⟩

/-- Main loop invariant: the pool and the selection together stay a
permutation of the candidate range, and while the pool can still supply
them, each round selects exactly one new ball. -/
theorem runRounds_spec (rand : Nat → ℚ → ℚ) (weights : List (Nat × ℚ))
    (max_val : Nat) (hw : ∀ p ∈ weights, 0 ≤ p.2)
    (hr : ∀ idx t, 0 ≤ t → 0 ≤ rand idx t ∧ rand idx t ≤ t) :
    ∀ (n idx : Nat) (st : List Nat × List Nat),
      List.Perm (st.1 ++ st.2) (range1 max_val) → n ≤ st.1.length →
      List.Perm
          ((runRounds rand weights idx n st).1 ++ (runRounds rand weights idx n st).2)
          (range1 max_val)
        ∧ (runRounds rand weights idx n st).2.length = st.2.length + n
        ∧ (runRounds rand weights idx n st).1.length = st.1.length - n := by
  intro n
  induction n with
  | zero => intro idx st hperm _; exact ⟨hperm, by simp [runRounds], by simp [runRounds]⟩
  | succ n ih =>
    intro idx st hperm hlen
    have hne : st.1 ≠ [] := by
      intro hnil
      rw [hnil] at hlen
      simp at hlen
    have htot : 0 ≤ totalWeight weights st.1 := totalWeight_nonneg hw st.1
    obtain ⟨hr0, hrt⟩ := hr idx (totalWeight weights st.1) htot
    obtain ⟨i, hmem, hround⟩ := sampleRound_pick hne hr0 hrt
    have hperm' : List.Perm ((st.1.erase i) ++ (st.2 ++ [i])) (range1 max_val) := by
      refine List.Perm.trans ?_ hperm
      have s1 : List.Perm ((st.1.erase i) ++ (st.2 ++ [i]))
          ((st.1.erase i) ++ ([i] ++ st.2)) :=
        List.Perm.append_left _ List.perm_append_comm
      have s2 : (st.1.erase i) ++ ([i] ++ st.2) = ((st.1.erase i) ++ [i]) ++ st.2 :=
        (List.append_assoc _ _ _).symm
      have s3 : List.Perm (((st.1.erase i) ++ [i]) ++ st.2) (([i] ++ st.1.erase i) ++ st.2) :=
        List.Perm.append_right _ List.perm_append_comm
      have s4 : List.Perm ((i :: st.1.erase i) ++ st.2) (st.1 ++ st.2) :=
        List.Perm.append_right _ (List.perm_cons_erase hmem).symm
      have s5 : List.Perm ((st.1.erase i) ++ ([i] ++ st.2)) (st.1 ++ st.2) := by
        rw [s2]
        exact s3.trans s4
      exact s1.trans s5
    have hlen1 : (st.1.erase i).length = st.1.length - 1 :=
      List.length_erase_of_mem hmem
    have hlen' : n ≤ (st.1.erase i).length := by
      rw [hlen1]; omega
    have hunfold : runRounds rand weights idx (n + 1) st
        = runRounds rand weights (idx + 1) n
            (sampleRound (rand idx (totalWeight weights st.1)) weights st) := rfl
    rw [hunfold, hround]
    obtain ⟨p1, p2, p3⟩ := ih (idx + 1) (st.1.erase i, st.2 ++ [i]) hperm' hlen'
    refine ⟨p1, ?_, ?_⟩
    · rw [p2]
      simp only [List.length_append, List.length_cons, List.length_nil]
      omega
    · rw [p3, hlen1]
      omega

/-- With an empty pool every round is a no-op: the total weight is `0` and
the cumulative walk selects nothing. -/
theorem runRounds_empty (rand : Nat → ℚ → ℚ) (weights : List (Nat × ℚ))
    {sel : List Nat} :
    ∀ (n idx : Nat), runRounds rand weights idx n ([], sel) = ([], sel) := by
  intro n
  induction n with
  | zero => intro idx; rfl
  | succ n ih =>
    intro idx
    show runRounds rand weights (idx + 1) n
      (sampleRound (rand idx (totalWeight weights [])) weights ([], sel)) = ([], sel)
    rw [show sampleRound (rand idx (totalWeight weights [])) weights ([], sel)
      = ([], sel) from rfl]
    exact ih (idx + 1)

/-- Splitting a run of `m + n` rounds. -/
theorem runRounds_add (rand : Nat → ℚ → ℚ) (weights : List (Nat × ℚ)) :
    ∀ (m n idx : Nat) (st : List Nat × List Nat),
      runRounds rand weights idx (m + n) st
        = runRounds rand weights (idx + m) n (runRounds rand weights idx m st) := by
  intro m
  induction m with
  | zero =>
    intro n idx st
    rw [Nat.zero_add, Nat.add_zero]
    rfl
  | succ m ih =>
    intro n idx st
    rw [show m + 1 + n = (m + n) + 1 from by omega]
    show runRounds rand weights (idx + 1) (m + n)
        (sampleRound (rand idx (totalWeight weights st.1)) weights st)
      = runRounds rand weights (idx + (m + 1)) n (runRounds rand weights idx (m + 1) st)
    rw [ih n (idx + 1), show idx + 1 + m = idx + (m + 1) from by omega]
    rfl

/-! ### Weight-derivation lemmas -/

theorem le_foldl_max (l : List ℚ) : ∀ a : ℚ, a ≤ l.foldl max a := by
  induction l with
  | nil => intro a; exact le_refl a
  | cons v vs ih =>
    intro a
    exact le_trans (le_max_left a v) (ih (max a v))

theorem mem_le_foldl_max (l : List ℚ) : ∀ (a x : ℚ), x ∈ l → x ≤ l.foldl max a := by
  induction l with
  | nil => intro a x hx; cases hx
  | cons v vs ih =>
    intro a x hx
    rcases List.mem_cons.mp hx with rfl | hx'
    · exact le_trans (le_max_right a x) (le_foldl_max vs (max a x))
    · exact ih (max a v) x hx'

theorem le_maxValues {d : List (Nat × ℚ)} {v : ℚ} (hv : v ∈ d.map Prod.snd) :
    v ≤ maxValues d := by
  unfold maxValues
  rcases hd : d.map Prod.snd with _ | ⟨v0, vs⟩
  · rw [hd] at hv; cases hv
  · rw [hd] at hv
    rcases List.mem_cons.mp hv with rfl | hv'
    · exact le_foldl_max vs v
    · exact mem_le_foldl_max vs v0 v hv'

theorem getOr0_mem_values {d : List (Nat × ℚ)} {b : Nat} (hb : b ∈ keys d) :
    getOr0 d b ∈ d.map Prod.snd := by
  induction d with
  | nil => cases hb
  | cons p rest ih =>
    by_cases hp : p.1 = b
    · simp only [getOr0, hp, if_true, List.map_cons]
      exact List.mem_cons_self _ _
    · have hb' : b ∈ keys rest := by
        rcases List.mem_cons.mp hb with h | h
        · exact absurd h.symm hp
        · exact h
      simp only [getOr0, hp, if_false, List.map_cons]
      exact List.mem_cons_of_mem _ (ih hb')

theorem getOr1_map_self (l : List Nat) (f : Nat → ℚ) :
    ∀ b ∈ l, getOr1 (l.map (fun x => (x, f x))) b = f b := by
  induction l with
  | nil => intro b hb; cases hb
  | cons a rest ih =>
    intro b hb
    by_cases hab : a = b
    · simp only [List.map_cons, getOr1, hab, if_true]
    · rcases List.mem_cons.mp hb with rfl | hb'
      · exact absurd rfl hab
      · simp only [List.map_cons, getOr1, hab, if_false]
        exact ih b hb'

/-- The derived weight of an in-range ball is literally
`max_freq - freq.get(ball, 0) + 1`. -/
theorem getOr1_deriveWeights (freq : List (Nat × ℚ)) (max_freq : ℚ)
    (max_ball : Nat) {b : Nat} (hb : b ∈ range1 max_ball) :
    getOr1 (deriveWeights freq max_freq max_ball) b
      = max_freq - getOr0 freq b + 1 :=
  getOr1_map_self (range1 max_ball) (fun x => max_freq - getOr0 freq x + 1) b hb

/-- Every derived weight of an in-range ball is at least 1 whenever the
ball's count is a value of the frequency dict, bounded by its maximum. -/
theorem deriveWeights_ge_one (freq : List (Nat × ℚ)) (max_ball : Nat)
    {b : Nat} (hb : b ∈ range1 max_ball) (hkey : b ∈ keys freq) :
    1 ≤ getOr1 (deriveWeights freq (maxValues freq) max_ball) b := by
  rw [getOr1_deriveWeights freq (maxValues freq) max_ball hb]
  have hle : getOr0 freq b ≤ maxValues freq := le_maxValues (getOr0_mem_values hkey)
  linarith

/-! ### Inversion helpers for the analyzers -/

theorem analyze_ne_empty {data : List Record} (h : data ≠ []) :
    FrequencyAnalyzer.analyze data
      = (countRecords 1 data (initFreq 33, initFreq 16)).map
          (fun st => ⟨st.1, st.2, data.length⟩) := by
  cases data with
  | nil => exact absurd rfl h
  | cons a l => rfl

theorem analyze_weighted_ne_empty {data : List Record} (h : data ≠ [])
    (w : ℚ) (count : Nat) :
    WeightedFrequencyAnalyzer.analyze_weighted data w count
      = (countRecords (1 : ℚ)
            (WeightedFrequencyAnalyzer.early_data data
              (WeightedFrequencyAnalyzer.get_recent_data data count).length)
            (initFreq 33, initFreq 16)).bind
          (fun st1 =>
            (countRecords w (WeightedFrequencyAnalyzer.get_recent_data data count) st1).bind
              (fun st2 => .ok ⟨st2.1, st2.2, data.length,
                (WeightedFrequencyAnalyzer.get_recent_data data count).length⟩)) := by
  cases data with
  | nil => exact absurd rfl h
  | cons a l => rfl

theorem analyze_ok_parts {data : List Record} {res : AnalyzeResult}
    (hne : data ≠ []) (h : FrequencyAnalyzer.analyze data = .ok res) :
    ∃ st', countRecords 1 data (initFreq 33, initFreq 16) = .ok st'
      ∧ res = ⟨st'.1, st'.2, data.length⟩ := by
  rw [analyze_ne_empty hne] at h
  cases hcr : countRecords 1 data (initFreq 33, initFreq 16) with
  | error e => rw [hcr] at h; cases h
  | ok st' =>
    rw [hcr] at h
    refine ⟨st', rfl, ?_⟩
    cases h
    rfl

theorem analyze_weighted_ok_parts {data : List Record} {w : ℚ} {count : Nat}
    {wres : WeightedResult} (hne : data ≠ [])
    (h : WeightedFrequencyAnalyzer.analyze_weighted data w count = .ok wres) :
    ∃ st1 st2,
      countRecords (1 : ℚ)
          (WeightedFrequencyAnalyzer.early_data data
            (WeightedFrequencyAnalyzer.get_recent_data data count).length)
          (initFreq 33, initFreq 16) = .ok st1
        ∧ countRecords w (WeightedFrequencyAnalyzer.get_recent_data data count) st1
            = .ok st2
        ∧ wres = ⟨st2.1, st2.2, data.length,
            (WeightedFrequencyAnalyzer.get_recent_data data count).length⟩ := by
  rw [analyze_weighted_ne_empty hne] at h
  cases hcr1 : countRecords (1 : ℚ)
      (WeightedFrequencyAnalyzer.early_data data
        (WeightedFrequencyAnalyzer.get_recent_data data count).length)
      (initFreq 33, initFreq 16) with
  | error e => rw [hcr1] at h; cases h
  | ok st1 =>
    rw [hcr1] at h
    simp only [Except.bind] at h
    cases hcr2 : countRecords w (WeightedFrequencyAnalyzer.get_recent_data data count) st1 with
    | error e => rw [hcr2] at h; cases h
    | ok st2 =>
      rw [hcr2] at h
      simp only [Except.bind] at h
      refine ⟨st1, st2, rfl, hcr2, ?_⟩
      cases h
      rfl

theorem sumValues_initFreq {α : Type} [AddCommMonoid α] (n : Nat) :
    sumValues (initFreq n : List (Nat × α)) = 0 := by
  show (List.map Prod.snd (initFreq n : List (Nat × α))).sum = 0
  refine List.sum_eq_zero ?_
  intro x hx
  simp only [initFreq, List.map_map, List.mem_map] at hx
  obtain ⟨i, _, rfl⟩ := hx
  rfl

theorem get_recent_subset (data : List Record) (count : Nat) :
    ∀ r ∈ WeightedFrequencyAnalyzer.get_recent_data data count, r ∈ data := by
  unfold WeightedFrequencyAnalyzer.get_recent_data
  by_cases h1 : count ≤ data.length
  · by_cases h2 : count = 0
    · rw [if_pos h1, if_pos h2]; exact fun r hr => hr
    · rw [if_pos h1, if_neg h2]; exact fun r hr => List.drop_subset _ data hr
  · rw [if_neg h1]; exact fun r hr => hr

theorem early_subset (data : List Record) (rc : Nat) :
    ∀ r ∈ WeightedFrequencyAnalyzer.early_data data rc, r ∈ data := by
  unfold WeightedFrequencyAnalyzer.early_data
  by_cases h : 0 < rc
  · rw [if_pos h]; exact fun r hr => List.take_subset _ data hr
  · rw [if_neg h]; intro r hr; cases hr

/-! ### Claim theorems -/

set_option maxRecDepth 100000 in
/-- C1: for every non-empty record sequence whose records each carry six
primary symbols in `[1, 33]` and a secondary symbol in `[1, 16]`, the primary
counts of `FrequencyAnalyzer.analyze` sum to `6 × len(records)` and the
secondary counts sum to `len(records)`; in particular ten copies of
`{primary: {1..6}, secondary: 7}` give primary count 10 to symbols 1..6 and
0 to every other symbol of `[1, 33]`. -/
theorem C1_frequency_totals (data : List Record) (hne : data ≠ [])
    (hdata : ∀ r ∈ data, r.red_balls.length = 6
      ∧ (∀ b ∈ r.red_balls, 1 ≤ b ∧ b ≤ 33)
      ∧ 1 ≤ r.blue_ball ∧ r.blue_ball ≤ 16) :
    ∃ res, FrequencyAnalyzer.analyze data = .ok res
      ∧ sumValues res.red = 6 * data.length
      ∧ sumValues res.blue = data.length
      ∧ FrequencyAnalyzer.analyze (List.replicate 10 ⟨[1, 2, 3, 4, 5, 6], 7⟩)
        = .ok ⟨(List.range 33).map (fun i => (i + 1, if i + 1 ≤ 6 then 10 else 0)),
            (List.range 16).map (fun i => (i + 1, if i + 1 = 7 then 10 else 0)), 10⟩ := by
  obtain ⟨st', hok, hs1, hs2⟩ := countRecords_sum data hdata (initFreq 33, initFreq 16)
    (keys_initFreq 33) (keys_initFreq 16)
  have hs1' : sumValues st'.1 = sumValues (initFreq 33 : List (Nat × Nat))
      + 6 * data.length := hs1
  have hs2' : sumValues st'.2 = sumValues (initFreq 16 : List (Nat × Nat))
      + data.length := hs2
  refine ⟨⟨st'.1, st'.2, data.length⟩, ?_, ?_, ?_, ?_⟩
  · rw [analyze_ne_empty hne, hok]
    rfl
  · show sumValues st'.1 = 6 * data.length
    rw [hs1', sumValues_initFreq, Nat.zero_add]
  · show sumValues st'.2 = data.length
    rw [hs2', sumValues_initFreq, Nat.zero_add]
  · rfl

theorem C1_frequency_totals_witness :
    ∃ res, FrequencyAnalyzer.analyze (List.replicate 10 ⟨[1, 2, 3, 4, 5, 6], 7⟩)
        = .ok res
      ∧ sumValues res.red
          = 6 * (List.replicate 10 (⟨[1, 2, 3, 4, 5, 6], 7⟩ : Record)).length
      ∧ sumValues res.blue
          = (List.replicate 10 (⟨[1, 2, 3, 4, 5, 6], 7⟩ : Record)).length
      ∧ FrequencyAnalyzer.analyze (List.replicate 10 ⟨[1, 2, 3, 4, 5, 6], 7⟩)
        = .ok ⟨(List.range 33).map (fun i => (i + 1, if i + 1 ≤ 6 then 10 else 0)),
            (List.range 16).map (fun i => (i + 1, if i + 1 = 7 then 10 else 0)), 10⟩ :=
  C1_frequency_totals (List.replicate 10 ⟨[1, 2, 3, 4, 5, 6], 7⟩)
    (by decide) (by decide)

/-- C2 counterexample: on the empty record sequence both analyzers return
EMPTY dictionaries, so the in-range symbol 1 is not a key of the result,
contradicting the claim that every symbol of the valid range appears as a
key with count 0 even for empty input. -/
theorem C2_full_range_counterexample :
    FrequencyAnalyzer.analyze [] = .ok ⟨[], [], 0⟩
      ∧ ¬ ((1 : Nat) ∈ keys (⟨[], [], 0⟩ : AnalyzeResult).red)
      ∧ WeightedFrequencyAnalyzer.analyze_weighted [] 3 160 = .ok ⟨[], [], 0, 0⟩
      ∧ ¬ ((1 : Nat) ∈ keys (⟨[], [], 0, 0⟩ : WeightedResult).red) :=
  ⟨rfl, by decide, rfl, by decide⟩

/-- C2 amended: for every NON-EMPTY record sequence on which the counting
pass completes, both `FrequencyAnalyzer.analyze` and
`WeightedFrequencyAnalyzer.analyze_weighted` return tables whose key set is
exactly the valid range (`[1, 33]` primary, `[1, 16]` secondary), and any
symbol that never occurs in the records has count 0; the empty sequence
instead yields empty dictionaries. -/
theorem C2_full_range_amended (data : List Record) (res : AnalyzeResult)
    (wres : WeightedResult) (w : ℚ) (count : Nat) (hne : data ≠ [])
    (hres : FrequencyAnalyzer.analyze data = .ok res)
    (hwres : WeightedFrequencyAnalyzer.analyze_weighted data w count = .ok wres) :
    keys res.red = range1 33 ∧ keys res.blue = range1 16
      ∧ keys wres.red = range1 33 ∧ keys wres.blue = range1 16
      ∧ (∀ b, (∀ r ∈ data, b ∉ r.red_balls) →
          getOr0 res.red b = 0 ∧ getOr0 wres.red b = 0)
      ∧ (∀ b, (∀ r ∈ data, r.blue_ball ≠ b) →
          getOr0 res.blue b = 0 ∧ getOr0 wres.blue b = 0) := by
  obtain ⟨st', hok, hres'⟩ := analyze_ok_parts hne hres
  obtain ⟨st1, st2, hok1, hok2, hwres'⟩ := analyze_weighted_ok_parts hne hwres
  subst hres'
  subst hwres'
  obtain ⟨hk1, hk2⟩ := countRecords_ok_keys 1 data _ _ hok
  obtain ⟨hk1a, hk2a⟩ := countRecords_ok_keys (1 : ℚ) _ _ _ hok1
  obtain ⟨hk1b, hk2b⟩ := countRecords_ok_keys w _ _ _ hok2
  refine ⟨?_, ?_, ?_, ?_, ?_, ?_⟩
  · rw [hk1]; exact keys_initFreq 33
  · rw [hk2]; exact keys_initFreq 16
  · show keys st2.1 = range1 33
    rw [hk1b, hk1a]; exact keys_initFreq 33
  · show keys st2.2 = range1 16
    rw [hk2b, hk2a]; exact keys_initFreq 16
  · intro b hb
    constructor
    · show getOr0 st'.1 b = 0
      rw [countRecords_getOr0_red 1 data _ _ hok hb]
      exact getOr0_initFreq 33 b
    · show getOr0 st2.1 b = 0
      rw [countRecords_getOr0_red w _ _ _ hok2
          (fun r hr => hb r (get_recent_subset data count r hr)),
        countRecords_getOr0_red (1 : ℚ) _ _ _ hok1
          (fun r hr => hb r (early_subset data _ r hr))]
      exact getOr0_initFreq 33 b
  · intro b hb
    constructor
    · show getOr0 st'.2 b = 0
      rw [countRecords_getOr0_blue 1 data _ _ hok hb]
      exact getOr0_initFreq 16 b
    · show getOr0 st2.2 b = 0
      rw [countRecords_getOr0_blue w _ _ _ hok2
          (fun r hr => hb r (get_recent_subset data count r hr)),
        countRecords_getOr0_blue (1 : ℚ) _ _ _ hok1
          (fun r hr => hb r (early_subset data _ r hr))]
      exact getOr0_initFreq 16 b

theorem C2_full_range_amended_witness :
    keys (bumpRedBalls 1 (initFreq 33) [1, 2, 3, 4, 5, 6]) = range1 33
      ∧ keys (bumpBy (initFreq 16) 7 1) = range1 16
      ∧ keys (bumpRedBalls (3 : ℚ) (initFreq 33) [1, 2, 3, 4, 5, 6]) = range1 33
      ∧ keys (bumpBy (initFreq 16) 7 (3 : ℚ)) = range1 16
      ∧ (∀ b, (∀ r ∈ [(⟨[1, 2, 3, 4, 5, 6], 7⟩ : Record)], b ∉ r.red_balls) →
          getOr0 (bumpRedBalls 1 (initFreq 33) [1, 2, 3, 4, 5, 6]) b = 0
          ∧ getOr0 (bumpRedBalls (3 : ℚ) (initFreq 33) [1, 2, 3, 4, 5, 6]) b = 0)
      ∧ (∀ b, (∀ r ∈ [(⟨[1, 2, 3, 4, 5, 6], 7⟩ : Record)], r.blue_ball ≠ b) →
          getOr0 (bumpBy (initFreq 16) 7 1) b = 0
          ∧ getOr0 (bumpBy (initFreq 16) 7 (3 : ℚ)) b = 0) :=
  C2_full_range_amended [⟨[1, 2, 3, 4, 5, 6], 7⟩]
    ⟨bumpRedBalls 1 (initFreq 33) [1, 2, 3, 4, 5, 6], bumpBy (initFreq 16) 7 1, 1⟩
    ⟨bumpRedBalls (3 : ℚ) (initFreq 33) [1, 2, 3, 4, 5, 6],
      bumpBy (initFreq 16) 7 (3 : ℚ), 1, 1⟩
    3 160 (by decide) rfl rfl

/-- C3 counterexample: a record whose secondary symbol 0 lies outside
`[1, 16]` makes `FrequencyAnalyzer.analyze` raise `KeyError` — the pass
aborts instead of ignoring the malformed value. -/
theorem C3_out_of_range_counterexample :
    FrequencyAnalyzer.analyze [⟨[1, 2, 3, 4, 5, 6], 0⟩] = .error .keyError := by
  decide

/-- C3 amended: out-of-range PRIMARY symbols are ignored — the pass
completes (whenever every secondary symbol is in range) and produces the
same result as if the out-of-range primary symbols were absent; an
out-of-range SECONDARY symbol instead raises `KeyError` and aborts the
pass (see the counterexample). -/
theorem C3_out_of_range_amended (data : List Record)
    (hblue : ∀ r ∈ data, 1 ≤ r.blue_ball ∧ r.blue_ball ≤ 16) :
    ∃ res, FrequencyAnalyzer.analyze data = .ok res
      ∧ FrequencyAnalyzer.analyze
          (data.map (fun r => ⟨r.red_balls.filter inRange33, r.blue_ball⟩))
        = .ok res := by
  cases data with
  | nil => exact ⟨⟨[], [], 0⟩, rfl, rfl⟩
  | cons a l =>
    obtain ⟨st', hok⟩ := countRecords_ok_of_blue 1 (a :: l) hblue
      (initFreq 33, initFreq 16) (keys_initFreq 16)
    refine ⟨⟨st'.1, st'.2, (a :: l).length⟩, ?_, ?_⟩
    · rw [analyze_ne_empty (List.cons_ne_nil a l), hok]
      rfl
    · have hmapne : (a :: l).map
          (fun r => (⟨r.red_balls.filter inRange33, r.blue_ball⟩ : Record)) ≠ [] := by
        simp
      rw [analyze_ne_empty hmapne,
        countRecords_filter 1 (a :: l) (initFreq 33, initFreq 16) (keys_initFreq 33),
        hok]
      simp only [List.length_map]
      rfl

theorem C3_out_of_range_amended_witness :
    ∃ res, FrequencyAnalyzer.analyze [⟨[1, 2, 3, 99, 5, 6], 7⟩] = .ok res
      ∧ FrequencyAnalyzer.analyze
          ([(⟨[1, 2, 3, 99, 5, 6], 7⟩ : Record)].map
            (fun r => ⟨r.red_balls.filter inRange33, r.blue_ball⟩))
        = .ok res :=
  C3_out_of_range_amended [⟨[1, 2, 3, 99, 5, 6], 7⟩] (by decide)

/-- C4: with `recent_weight = 1.0`, the red and blue tables produced by
`WeightedFrequencyAnalyzer.analyze_weighted` coincide numerically (up to
the exact int-to-rational embedding) with those of
`FrequencyAnalyzer.analyze`, for every record sequence and every
recent-window size — including sequences on which both passes raise the
same `KeyError`. -/
theorem C4_weight_one_degenerates (data : List Record) (count : Nat) :
    (WeightedFrequencyAnalyzer.analyze_weighted data 1 count).map
        (fun r => (r.red, r.blue))
      = (FrequencyAnalyzer.analyze data).map
        (fun r => (castDict r.red, castDict r.blue)) := by
  cases data with
  | nil => rfl
  | cons a l =>
    have hcast : countRecords (1 : ℚ) (a :: l) (initFreq 33, initFreq 16)
        = (countRecords (1 : Nat) (a :: l) (initFreq 33, initFreq 16)).map
            (fun st => (castDict st.1, castDict st.2)) := by
      have h := countRecords_cast (a :: l) (initFreq 33, initFreq 16)
      simp only [castDict_initFreq] at h
      exact h
    have hsplit := countRecords_append (1 : ℚ)
      (WeightedFrequencyAnalyzer.early_data (a :: l)
        (WeightedFrequencyAnalyzer.get_recent_data (a :: l) count).length)
      (WeightedFrequencyAnalyzer.get_recent_data (a :: l) count)
      (initFreq 33, initFreq 16)
    rw [early_append_recent (a :: l) count] at hsplit
    rw [analyze_weighted_ne_empty (List.cons_ne_nil a l) 1 count,
      analyze_ne_empty (List.cons_ne_nil a l)]
    cases he : countRecords (1 : ℚ)
        (WeightedFrequencyAnalyzer.early_data (a :: l)
          (WeightedFrequencyAnalyzer.get_recent_data (a :: l) count).length)
        (initFreq 33, initFreq 16) with
    | error e =>
      rw [he] at hsplit
      simp only [Except.bind] at hsplit ⊢
      rw [hsplit] at hcast
      cases hn : countRecords (1 : Nat) (a :: l) (initFreq 33, initFreq 16) with
      | error f =>
        rw [hn] at hcast
        simp only [Except.map] at hcast ⊢
        cases hcast
        rfl
      | ok stN =>
        rw [hn] at hcast
        simp only [Except.map] at hcast
        cases hcast
    | ok st1 =>
      rw [he] at hsplit
      simp only [Except.bind] at hsplit ⊢
      cases hr : countRecords (1 : ℚ)
          (WeightedFrequencyAnalyzer.get_recent_data (a :: l) count) st1 with
      | error e =>
        rw [hr] at hsplit
        rw [hsplit] at hcast
        cases hn : countRecords (1 : Nat) (a :: l) (initFreq 33, initFreq 16) with
        | error f =>
          rw [hn] at hcast
          simp only [Except.map] at hcast ⊢
          cases hcast
          rfl
        | ok stN =>
          rw [hn] at hcast
          simp only [Except.map] at hcast
          cases hcast
      | ok st2 =>
        rw [hr] at hsplit
        rw [hsplit] at hcast
        cases hn : countRecords (1 : Nat) (a :: l) (initFreq 33, initFreq 16) with
        | error f =>
          rw [hn] at hcast
          simp only [Except.map] at hcast
          cases hcast
        | ok stN =>
          rw [hn] at hcast
          simp only [Except.map, Except.bind] at hcast ⊢
          cases hcast
          rfl

theorem length_range1 (n : Nat) : (range1 n).length = n := by
  rw [range1, List.length_map, List.length_range]

/-- C5: for non-negative weights and any draw bounded by the pool size,
`_weighted_sample` returns exactly `k` distinct, ascending-sorted symbols,
each within `[1, max_val]` — for every behaviour of `random.uniform` that
respects its contract `0 ≤ r ≤ total`. -/
theorem C5_weighted_sample_spec (rand : Nat → ℚ → ℚ) (weights : List (Nat × ℚ))
    (k max_val : Nat) (hw : ∀ p ∈ weights, 0 ≤ p.2)
    (hr : ∀ idx t, 0 ≤ t → 0 ≤ rand idx t ∧ rand idx t ≤ t)
    (hk1 : 1 ≤ k) (hk2 : k ≤ max_val) :
    (WeightedFrequencyAnalyzer.weighted_sample rand weights k max_val).length = k
      ∧ (WeightedFrequencyAnalyzer.weighted_sample rand weights k max_val).Nodup
      ∧ List.Sorted (· ≤ ·)
          (WeightedFrequencyAnalyzer.weighted_sample rand weights k max_val)
      ∧ ∀ x ∈ WeightedFrequencyAnalyzer.weighted_sample rand weights k max_val,
          1 ≤ x ∧ x ≤ max_val := by
  have hinit : List.Perm (range1 max_val ++ ([] : List Nat)) (range1 max_val) := by
    rw [List.append_nil]
  have hlen : k ≤ (range1 max_val).length := by rw [length_range1]; exact hk2
  obtain ⟨hperm, hsel, hav⟩ := runRounds_spec rand weights max_val hw hr k 0
    (range1 max_val, []) hinit hlen
  have hsort := List.perm_insertionSort (· ≤ · : Nat → Nat → Prop)
    (runRounds rand weights 0 k (range1 max_val, [])).2
  have hnodup2 : (runRounds rand weights 0 k (range1 max_val, [])).2.Nodup :=
    (List.Nodup.of_append_right (hperm.nodup_iff.mpr (nodup_range1 max_val)))
  refine ⟨?_, ?_, ?_, ?_⟩
  · show ((runRounds rand weights 0 k (range1 max_val, [])).2.insertionSort (· ≤ ·)).length = k
    rw [hsort.length_eq, hsel]
    simp
  · exact hsort.nodup_iff.mpr hnodup2
  · exact List.sorted_insertionSort (· ≤ ·) _
  · intro x hx
    have hx2 : x ∈ (runRounds rand weights 0 k (range1 max_val, [])).2 :=
      hsort.mem_iff.mp hx
    have : x ∈ range1 max_val :=
      hperm.mem_iff.mp (List.mem_append_right _ hx2)
    exact mem_range1.mp this

theorem C5_weighted_sample_spec_witness :
    (WeightedFrequencyAnalyzer.weighted_sample (fun _ _ => 0) [] 2 3).length = 2
      ∧ (WeightedFrequencyAnalyzer.weighted_sample (fun _ _ => 0) [] 2 3).Nodup
      ∧ List.Sorted (· ≤ ·) (WeightedFrequencyAnalyzer.weighted_sample (fun _ _ => 0) [] 2 3)
      ∧ ∀ x ∈ WeightedFrequencyAnalyzer.weighted_sample (fun _ _ => 0) [] 2 3,
          1 ≤ x ∧ x ≤ 3 :=
  C5_weighted_sample_spec (fun _ _ => 0) [] 2 3 (by simp)
    (fun _ t ht => ⟨le_refl 0, ht⟩) (by norm_num) (by norm_num)

/-- C6: `_weighted_sample_one` is total: for non-negative weights and
`max_val ≥ 1` it always returns a symbol in `[1, max_val]` — the first
symbol whose cumulative weight reaches the draw, or the deterministic
fallback `1` when the accumulation never reaches it — and never raises. -/
theorem C6_sample_one_spec (rand : ℚ → ℚ) (weights : List (Nat × ℚ))
    (max_val : Nat) (hw : ∀ p ∈ weights, 0 ≤ p.2) (hmax : 1 ≤ max_val) :
    (1 ≤ WeightedFrequencyAnalyzer.weighted_sample_one rand weights max_val
      ∧ WeightedFrequencyAnalyzer.weighted_sample_one rand weights max_val ≤ max_val)
    ∧ (pickFrom weights (rand (totalWeight weights (range1 max_val))) 0
          (range1 max_val) = none
        → WeightedFrequencyAnalyzer.weighted_sample_one rand weights max_val = 1) := by
  unfold WeightedFrequencyAnalyzer.weighted_sample_one
  cases hp : pickFrom weights (rand (totalWeight weights (range1 max_val))) 0
      (range1 max_val) with
  | none => exact ⟨⟨le_refl 1, hmax⟩, fun _ => rfl⟩
  | some i =>
    have hmem := mem_range1.mp (pickFrom_mem weights _ (range1 max_val) 0 hp)
    exact ⟨⟨hmem.1, hmem.2⟩, fun hc => by cases hc⟩

theorem C6_sample_one_spec_witness :
    (1 ≤ WeightedFrequencyAnalyzer.weighted_sample_one (fun _ => 0) [] 5
      ∧ WeightedFrequencyAnalyzer.weighted_sample_one (fun _ => 0) [] 5 ≤ 5)
    ∧ (pickFrom [] ((fun _ => (0 : ℚ)) (totalWeight [] (range1 5))) 0 (range1 5) = none
        → WeightedFrequencyAnalyzer.weighted_sample_one (fun _ => 0) [] 5 = 1) :=
  C6_sample_one_spec (fun _ => 0) [] 5 (by simp) (by norm_num)

/-- C10 counterexample: with a NEGATIVE weight the claim fails.  For
`weights = {1: -5}`, `max_val = 1`, `k = 2` and draws `r = 0` (a value
`random.uniform(0, -5)` can produce), the cumulative walk never reaches `r`
in any round, so `_weighted_sample` returns `[]` instead of the promised
full candidate list `[1]`. -/
theorem C10_overdraw_counterexample :
    WeightedFrequencyAnalyzer.weighted_sample (fun _ _ => 0) [(1, (-5 : ℚ))] 2 1
      ≠ range1 1 := by
  have hpick : pickFrom [(1, (-5 : ℚ))] 0 0 (range1 1) = none := by
    show pickFrom [(1, (-5 : ℚ))] 0 0 [1] = none
    norm_num [pickFrom, getOr1]
  have hround : sampleRound 0 [(1, (-5 : ℚ))] (range1 1, []) = (range1 1, []) := by
    simp only [sampleRound, hpick]
  have hrun : runRounds (fun _ _ => 0) [(1, (-5 : ℚ))] 0 2 (range1 1, [])
      = (range1 1, []) :=
    calc runRounds (fun _ _ => 0) [(1, (-5 : ℚ))] 0 2 (range1 1, [])
        = runRounds (fun _ _ => 0) [(1, (-5 : ℚ))] 1 1
            (sampleRound 0 [(1, (-5 : ℚ))] (range1 1, [])) := rfl
      _ = runRounds (fun _ _ => 0) [(1, (-5 : ℚ))] 1 1 (range1 1, []) := by rw [hround]
      _ = runRounds (fun _ _ => 0) [(1, (-5 : ℚ))] 2 0
            (sampleRound 0 [(1, (-5 : ℚ))] (range1 1, [])) := rfl
      _ = runRounds (fun _ _ => 0) [(1, (-5 : ℚ))] 2 0 (range1 1, []) := by rw [hround]
      _ = (range1 1, []) := rfl
  have hkey : WeightedFrequencyAnalyzer.weighted_sample (fun _ _ => 0)
      [(1, (-5 : ℚ))] 2 1 = [] := by
    unfold WeightedFrequencyAnalyzer.weighted_sample
    rw [hrun]
    rfl
  rw [hkey]
  decide

/-- C10 amended: for NON-NEGATIVE weights, a draw count exceeding the pool
size is not an error: after `max_val` rounds every candidate has been
selected, each surplus round computes total weight `0` over the empty pool
and selects nothing, and the result is exactly the full ascending candidate
list `[1..max_val]`. -/
theorem C10_overdraw_amended (rand : Nat → ℚ → ℚ) (weights : List (Nat × ℚ))
    (k max_val : Nat) (hw : ∀ p ∈ weights, 0 ≤ p.2)
    (hr : ∀ idx t, 0 ≤ t → 0 ≤ rand idx t ∧ rand idx t ≤ t)
    (hk : max_val < k) :
    WeightedFrequencyAnalyzer.weighted_sample rand weights k max_val = range1 max_val
      ∧ totalWeight weights [] = 0 := by
  refine ⟨?_, rfl⟩
  have hinit : List.Perm (range1 max_val ++ ([] : List Nat)) (range1 max_val) := by
    rw [List.append_nil]
  have hlen : max_val ≤ (range1 max_val).length := by rw [length_range1]
  obtain ⟨hperm, hsel, hav⟩ := runRounds_spec rand weights max_val hw hr max_val 0
    (range1 max_val, []) hinit hlen
  have h1 : (runRounds rand weights 0 max_val (range1 max_val, [])).1 = [] := by
    have : (runRounds rand weights 0 max_val (range1 max_val, [])).1.length = 0 := by
      rw [hav]
      show (range1 max_val).length - max_val = 0
      rw [length_range1]
      omega
    exact List.length_eq_zero.mp this
  have hinner_eta : runRounds rand weights 0 max_val (range1 max_val, [])
      = ([], (runRounds rand weights 0 max_val (range1 max_val, [])).2) :=
    Prod.ext h1 rfl
  have hsplit : max_val + (k - max_val) = k := by omega
  unfold WeightedFrequencyAnalyzer.weighted_sample
  rw [← hsplit, runRounds_add, hinner_eta, runRounds_empty]
  have hpermsel : List.Perm (runRounds rand weights 0 max_val (range1 max_val, [])).2
      (range1 max_val) := by
    have := hperm
    rw [h1, List.nil_append] at this
    exact this
  exact List.eq_of_perm_of_sorted
    ((List.perm_insertionSort (· ≤ · : Nat → Nat → Prop) _).trans hpermsel)
    (List.sorted_insertionSort (· ≤ ·) _) (sorted_range1 max_val)

theorem C10_overdraw_amended_witness :
    WeightedFrequencyAnalyzer.weighted_sample (fun _ _ => 0) [] 2 1 = range1 1
      ∧ totalWeight [] [] = 0 :=
  C10_overdraw_amended (fun _ _ => 0) [] 2 1 (by simp)
    (fun _ t ht => ⟨le_refl 0, ht⟩) (by norm_num)

/-- C7: for every non-empty record sequence whose analysis completes, the
weight tables built by both prediction strategies
(`predict_by_weighted_frequency` and `LotteryPredictor.predict`) assign to
every symbol of the valid range exactly
`max(count over all symbols) - count(symbol) + 1`, which is always ≥ 1, so
no symbol is impossible to draw. -/
theorem C7_weights_invariant (data : List Record) (w : ℚ) (count : Nat)
    (wres : WeightedResult) (res : AnalyzeResult) (hne : data ≠ [])
    (hwres : WeightedFrequencyAnalyzer.analyze_weighted data w count = .ok wres)
    (hres : FrequencyAnalyzer.analyze data = .ok res) :
    (∀ b, 1 ≤ b → b ≤ 33 →
        getOr1 (deriveWeights wres.red (maxValues wres.red) 33) b
          = maxValues wres.red - getOr0 wres.red b + 1
        ∧ 1 ≤ getOr1 (deriveWeights wres.red (maxValues wres.red) 33) b)
    ∧ (∀ b, 1 ≤ b → b ≤ 16 →
        getOr1 (deriveWeights wres.blue (maxValues wres.blue) 16) b
          = maxValues wres.blue - getOr0 wres.blue b + 1
        ∧ 1 ≤ getOr1 (deriveWeights wres.blue (maxValues wres.blue) 16) b)
    ∧ (∀ b, 1 ≤ b → b ≤ 33 →
        getOr1 (deriveWeights (castDict res.red) (maxValues (castDict res.red)) 33) b
          = maxValues (castDict res.red) - getOr0 (castDict res.red) b + 1
        ∧ 1 ≤ getOr1 (deriveWeights (castDict res.red)
            (maxValues (castDict res.red)) 33) b)
    ∧ (∀ b, 1 ≤ b → b ≤ 16 →
        getOr1 (deriveWeights (castDict res.blue) (maxValues (castDict res.blue)) 16) b
          = maxValues (castDict res.blue) - getOr0 (castDict res.blue) b + 1
        ∧ 1 ≤ getOr1 (deriveWeights (castDict res.blue)
            (maxValues (castDict res.blue)) 16) b) := by
  obtain ⟨st', hok, hres'⟩ := analyze_ok_parts hne hres
  obtain ⟨st1, st2, hok1, hok2, hwres'⟩ := analyze_weighted_ok_parts hne hwres
  subst hres'
  subst hwres'
  obtain ⟨hk1, hk2⟩ := countRecords_ok_keys 1 data _ _ hok
  obtain ⟨hk1a, hk2a⟩ := countRecords_ok_keys (1 : ℚ) _ _ _ hok1
  obtain ⟨hk1b, hk2b⟩ := countRecords_ok_keys w _ _ _ hok2
  have hkr : keys st'.1 = range1 33 := by rw [hk1]; exact keys_initFreq 33
  have hkb : keys st'.2 = range1 16 := by rw [hk2]; exact keys_initFreq 16
  have hkrw : keys st2.1 = range1 33 := by rw [hk1b, hk1a]; exact keys_initFreq 33
  have hkbw : keys st2.2 = range1 16 := by rw [hk2b, hk2a]; exact keys_initFreq 16
  refine ⟨?_, ?_, ?_, ?_⟩
  · intro b h1 h2
    have hbr : b ∈ range1 33 := mem_range1.mpr ⟨h1, h2⟩
    exact ⟨getOr1_deriveWeights _ _ _ hbr,
      deriveWeights_ge_one _ _ hbr (by rw [show keys st2.1 = range1 33 from hkrw]; exact hbr)⟩
  · intro b h1 h2
    have hbr : b ∈ range1 16 := mem_range1.mpr ⟨h1, h2⟩
    exact ⟨getOr1_deriveWeights _ _ _ hbr,
      deriveWeights_ge_one _ _ hbr (by rw [show keys st2.2 = range1 16 from hkbw]; exact hbr)⟩
  · intro b h1 h2
    have hbr : b ∈ range1 33 := mem_range1.mpr ⟨h1, h2⟩
    exact ⟨getOr1_deriveWeights _ _ _ hbr,
      deriveWeights_ge_one _ _ hbr
        (by rw [show keys (castDict st'.1) = range1 33 from by rw [keys_castDict]; exact hkr]
            exact hbr)⟩
  · intro b h1 h2
    have hbr : b ∈ range1 16 := mem_range1.mpr ⟨h1, h2⟩
    exact ⟨getOr1_deriveWeights _ _ _ hbr,
      deriveWeights_ge_one _ _ hbr
        (by rw [show keys (castDict st'.2) = range1 16 from by rw [keys_castDict]; exact hkb]
            exact hbr)⟩

/-- C9: `predict_both_methods` passes `red_count` positionally into the
`data` parameter of `LotteryPredictor.predict`, so for any truthy draw
count the global strategy iterates an integer and raises `TypeError`; the
call never returns and the supplied records never reach method 1. -/
theorem C9_both_methods_type_error (rand : Nat → ℚ → ℚ) (randOne : ℚ → ℚ)
    (fb : Prediction) (data : List Record) (red_count red_max blue_max : Nat)
    (hist : List Prediction) (hrc : red_count ≠ 0) :
    LotteryPredictor.predict_both_methods rand randOne fb data red_count red_max
      blue_max hist = .error .typeError := by
  have h1 : LotteryPredictor.predict rand randOne fb (.intArg red_count)
      red_max blue_max 16 hist = .error .typeError := by
    unfold LotteryPredictor.predict
    rw [show DataArg.isFalsy (DataArg.intArg red_count) = false from by
      simp [DataArg.isFalsy, hrc]]
    rfl
  unfold LotteryPredictor.predict_both_methods
  rw [h1]
  rfl

theorem C9_both_methods_type_error_witness :
    LotteryPredictor.predict_both_methods (fun _ _ => 0) (fun _ => 0)
      ⟨[1, 2, 3, 4, 5, 6], 1⟩ [] 6 33 16 [] = .error .typeError :=
  C9_both_methods_type_error (fun _ _ => 0) (fun _ => 0)
    ⟨[1, 2, 3, 4, 5, 6], 1⟩ [] 6 33 16 [] (by norm_num)

/-- C8 counterexample: on empty data `predict_by_weighted_frequency`
`return`s the fallback prediction WITHOUT appending it to the analyzer's
`prediction_history` — the returned history is unchanged and does not
contain the returned prediction. -/
theorem C8_history_counterexample :
    WeightedFrequencyAnalyzer.predict_by_weighted_frequency (fun _ _ => 0) (fun _ => 0)
        predX [] 3 6 33 16 160 [] = .ok (predX, [])
      ∧ predX ∉ ([] : List Prediction) :=
  ⟨rfl, by simp⟩

/-- C8 amended: `LotteryPredictor.predict` (both its fallback and analysis
branches) and `LotteryPredictor.predict_by_recent_data` append the returned
prediction to the history on every successful call, and
`predict_by_weighted_frequency` does so on every successful call with
NON-EMPTY data; on empty data the latter returns the random fallback with
the history unchanged.  No call ever removes history entries: the new
history is always the old one, possibly extended by the one returned
prediction. -/
theorem C8_history_append_amended (rand : Nat → ℚ → ℚ) (randOne : ℚ → ℚ)
    (fb : Prediction) (data : List Record) (w : ℚ)
    (red_count red_max blue_max recent_count : Nat)
    (hist : List Prediction) (arg : DataArg) (p : Prediction)
    (h' : List Prediction) :
    (data ≠ [] →
      WeightedFrequencyAnalyzer.predict_by_weighted_frequency rand randOne fb data w
        red_count red_max blue_max recent_count hist = .ok (p, h') → h' = hist ++ [p])
    ∧ WeightedFrequencyAnalyzer.predict_by_weighted_frequency rand randOne fb [] w
        red_count red_max blue_max recent_count hist = .ok (fb, hist)
    ∧ (LotteryPredictor.predict rand randOne fb arg red_count red_max blue_max hist
        = .ok (p, h') → h' = hist ++ [p])
    ∧ (LotteryPredictor.predict_by_recent_data rand randOne fb data red_count red_max
        blue_max recent_count hist = .ok (p, h') → h' = hist ++ [p]) := by
  refine ⟨?_, rfl, ?_, ?_⟩
  · intro hne hok
    cases data with
    | nil => exact absurd rfl hne
    | cons a l =>
      have hunf : WeightedFrequencyAnalyzer.predict_by_weighted_frequency rand randOne fb
          (a :: l) w red_count red_max blue_max recent_count hist
        = (WeightedFrequencyAnalyzer.analyze_weighted (a :: l) w recent_count).bind
            (fun wf =>
              .ok (⟨WeightedFrequencyAnalyzer.weighted_sample rand
                    (deriveWeights wf.red (maxValues wf.red) red_max) red_count red_max,
                  WeightedFrequencyAnalyzer.weighted_sample_one randOne
                    (deriveWeights wf.blue (maxValues wf.blue) blue_max) blue_max⟩,
                hist ++ [⟨WeightedFrequencyAnalyzer.weighted_sample rand
                    (deriveWeights wf.red (maxValues wf.red) red_max) red_count red_max,
                  WeightedFrequencyAnalyzer.weighted_sample_one randOne
                    (deriveWeights wf.blue (maxValues wf.blue) blue_max) blue_max⟩])) := rfl
      rw [hunf] at hok
      cases haw : WeightedFrequencyAnalyzer.analyze_weighted (a :: l) w recent_count with
      | error e =>
        rw [haw] at hok
        simp only [Except.bind] at hok
        cases hok
      | ok wf =>
        rw [haw] at hok
        simp only [Except.bind] at hok
        injection hok with hpair
        rw [Prod.mk.injEq] at hpair
        obtain ⟨hp, hh⟩ := hpair
        rw [← hh, ← hp]
  · intro hok
    cases arg with
    | noneArg =>
      have hok2 : (Except.ok (fb, hist ++ [fb]) : Except PyErr (Prediction × List Prediction))
          = .ok (p, h') := hok
      injection hok2 with hpair
      rw [Prod.mk.injEq] at hpair
      obtain ⟨hp, hh⟩ := hpair
      rw [← hh, ← hp]
    | intArg n =>
      cases hn : (n == 0) with
      | true =>
        unfold LotteryPredictor.predict at hok
        rw [show DataArg.isFalsy (DataArg.intArg n) = (n == 0) from rfl, hn,
          if_pos rfl] at hok
        injection hok with hpair
        rw [Prod.mk.injEq] at hpair
        obtain ⟨hp, hh⟩ := hpair
        rw [← hh, ← hp]
      | false =>
        unfold LotteryPredictor.predict at hok
        rw [show DataArg.isFalsy (DataArg.intArg n) = (n == 0) from rfl, hn,
          if_neg (by simp)] at hok
        have hok2 : (Except.error PyErr.typeError
            : Except PyErr (Prediction × List Prediction)) = .ok (p, h') := hok
        cases hok2
    | recordsArg l =>
      cases hl : l.isEmpty with
      | true =>
        unfold LotteryPredictor.predict at hok
        rw [show DataArg.isFalsy (DataArg.recordsArg l) = l.isEmpty from rfl, hl,
          if_pos rfl] at hok
        injection hok with hpair
        rw [Prod.mk.injEq] at hpair
        obtain ⟨hp, hh⟩ := hpair
        rw [← hh, ← hp]
      | false =>
        unfold LotteryPredictor.predict at hok
        rw [show DataArg.isFalsy (DataArg.recordsArg l) = l.isEmpty from rfl, hl,
          if_neg (by simp)] at hok
        have hok2 : (FrequencyAnalyzer.analyze l).bind
            (fun freq =>
              (Except.ok (⟨WeightedFrequencyAnalyzer.weighted_sample rand
                    (deriveWeights (castDict freq.red) (maxValues (castDict freq.red))
                      red_max) red_count red_max,
                  WeightedFrequencyAnalyzer.weighted_sample_one randOne
                    (deriveWeights (castDict freq.blue) (maxValues (castDict freq.blue))
                      blue_max) blue_max⟩,
                hist ++ [⟨WeightedFrequencyAnalyzer.weighted_sample rand
                    (deriveWeights (castDict freq.red) (maxValues (castDict freq.red))
                      red_max) red_count red_max,
                  WeightedFrequencyAnalyzer.weighted_sample_one randOne
                    (deriveWeights (castDict freq.blue) (maxValues (castDict freq.blue))
                      blue_max) blue_max⟩])))
            = .ok (p, h') := hok
        cases ha : FrequencyAnalyzer.analyze l with
        | error e =>
          rw [ha] at hok2
          simp only [Except.bind] at hok2
          cases hok2
        | ok freq =>
          rw [ha] at hok2
          simp only [Except.bind] at hok2
          injection hok2 with hpair
          rw [Prod.mk.injEq] at hpair
          obtain ⟨hp, hh⟩ := hpair
          rw [← hh, ← hp]
  · intro hok
    cases hw2 : WeightedFrequencyAnalyzer.predict_by_weighted_frequency rand randOne fb
        data 3 red_count red_max blue_max recent_count [] with
    | error e =>
      have hok2 : (WeightedFrequencyAnalyzer.predict_by_weighted_frequency rand randOne
          fb data 3 red_count red_max blue_max recent_count []).bind
            (fun pr => (Except.ok (pr.1, hist ++ [pr.1])
              : Except PyErr (Prediction × List Prediction)))
          = .ok (p, h') := hok
      rw [hw2] at hok2
      simp only [Except.bind] at hok2
      cases hok2
    | ok pr =>
      have hok2 : (WeightedFrequencyAnalyzer.predict_by_weighted_frequency rand randOne
          fb data 3 red_count red_max blue_max recent_count []).bind
            (fun pr => (Except.ok (pr.1, hist ++ [pr.1])
              : Except PyErr (Prediction × List Prediction)))
          = .ok (p, h') := hok
      rw [hw2] at hok2
      simp only [Except.bind] at hok2
      injection hok2 with hpair
      rw [Prod.mk.injEq] at hpair
      obtain ⟨hp, hh⟩ := hpair
      rw [← hh, ← hp]

theorem C8_history_append_amended_witness :
    ([recX] ≠ [])
      ∧ WeightedFrequencyAnalyzer.predict_by_weighted_frequency (fun _ _ => 0)
          (fun _ => 0) predX [recX] 3 6 33 16 160 [] = .ok (predX, [predX])
      ∧ ([predX] : List Prediction) = [] ++ [predX] :=
  ⟨by decide, rfl,
    (C8_history_append_amended (fun _ _ => 0) (fun _ => 0) predX [recX] 3 6 33 16 160 []
      .noneArg predX [predX]).1 (by decide) rfl⟩

theorem C7_weights_invariant_witness :
    (∀ b, 1 ≤ b → b ≤ 33 →
        getOr1 (deriveWeights redCountsW (maxValues redCountsW) 33) b
          = maxValues redCountsW - getOr0 redCountsW b + 1
        ∧ 1 ≤ getOr1 (deriveWeights redCountsW (maxValues redCountsW) 33) b)
    ∧ (∀ b, 1 ≤ b → b ≤ 16 →
        getOr1 (deriveWeights blueCountsW (maxValues blueCountsW) 16) b
          = maxValues blueCountsW - getOr0 blueCountsW b + 1
        ∧ 1 ≤ getOr1 (deriveWeights blueCountsW (maxValues blueCountsW) 16) b)
    ∧ (∀ b, 1 ≤ b → b ≤ 33 →
        getOr1 (deriveWeights (castDict redCountsN) (maxValues (castDict redCountsN)) 33) b
          = maxValues (castDict redCountsN) - getOr0 (castDict redCountsN) b + 1
        ∧ 1 ≤ getOr1 (deriveWeights (castDict redCountsN)
            (maxValues (castDict redCountsN)) 33) b)
    ∧ (∀ b, 1 ≤ b → b ≤ 16 →
        getOr1 (deriveWeights (castDict blueCountsN)
            (maxValues (castDict blueCountsN)) 16) b
          = maxValues (castDict blueCountsN) - getOr0 (castDict blueCountsN) b + 1
        ∧ 1 ≤ getOr1 (deriveWeights (castDict blueCountsN)
            (maxValues (castDict blueCountsN)) 16) b) :=
  C7_weights_invariant [recX] 3 160 ⟨redCountsW, blueCountsW, 1, 1⟩
    ⟨redCountsN, blueCountsN, 1⟩ (by decide) rfl rfl
